import Mathlib

/-!
Verification of the `types/lib.rs` runtime-support module of
differential-datalog: numeric width aliases, string append helpers, and the
`deserialize_map_from_array!` codec that serializes an ordered map
(`BTreeMap`) as the bare sequence of its values and deserializes by
re-deriving each key from its value.
-/

set_option autoImplicit false

namespace ddlog

/-! ### Numeric width aliases

`pub type std_usize = u64;` and `pub type std_isize = i64;`.
`u64` and `i64` are modelled as bounded integers. -/

/-- Rust `u64`: a natural number below `2 ^ 64`. -/
structure u64 where
  val : Nat
  isLt : val < 2 ^ 64

/-- Rust `i64`: an integer in `[-2 ^ 63, 2 ^ 63)`. -/
structure i64 where
  val : Int
  lowerBound : -2 ^ 63 ≤ val
  upperBound : val < 2 ^ 63

/-- `pub type std_usize = u64;` -/
def std_usize := u64

/-- `pub type std_isize = i64;` -/
def std_isize := i64

/-! ### String append helpers -/

/-- `string_append_str(mut s1: String, s2: &str) -> String` pushes `s2`
onto the owned buffer `s1` and returns it. -/
def string_append_str (s1 : String) (s2 : String) : String :=
  s1 ++ s2

/-- `string_append(mut s1: String, s2: &String) -> String` pushes `s2`
onto the owned buffer `s1` and returns it. -/
def string_append (s1 : String) (s2 : String) : String :=
  s1 ++ s2

/-! ### The ordered map

`ddlog_std::Map` wraps a `BTreeMap`; we model its contents as an
association list strictly sorted by key.  `SortedKeys` is the
representation invariant; `btreeInsert` is `BTreeMap::insert`
(replacing the value when the key is present); `btreeGet` is key lookup. -/

variable {K V R E : Type}

/-- Keys strictly ascend along the entry list. -/
def SortedKeys [LinearOrder K] (m : List (K × V)) : Prop :=
  List.Pairwise (fun a b => a.1 < b.1) m

instance sortedKeysDecidable [LinearOrder K] (m : List (K × V)) :
    Decidable (SortedKeys m) :=
  inferInstanceAs (Decidable (List.Pairwise _ m))

/-- Insert into a sorted association list, replacing an existing binding
of the same key (the semantics of `BTreeMap::insert`). -/
def btreeInsert [LinearOrder K] (k : K) (v : V) : List (K × V) → List (K × V)
  | [] => [(k, v)]
  | (k₀, v₀) :: rest =>
    if k < k₀ then (k, v) :: (k₀, v₀) :: rest
    else if k = k₀ then (k, v) :: rest
    else (k₀, v₀) :: btreeInsert k v rest

/-- Key lookup (`BTreeMap::get`). -/
def btreeGet [LinearOrder K] (m : List (K × V)) (k : K) : Option V :=
  match m with
  | [] => none
  | (k₀, v₀) :: rest => if k = k₀ then some v₀ else btreeGet rest k

/-! ### The array map codec

`serialize` is `serializer.collect_seq(map.x.values())`: the values in
ascending key order, keys discarded.

`deserialize` first runs `Vec::<V>::deserialize(deserializer)?` — each
element decoded in turn, the first failure aborting the whole call —
then collects `(kfunc(&item), item)` pairs into a `BTreeMap`, later
pairs overwriting earlier ones on key collision. -/

/-- The serialized form: values in map (ascending-key) order. -/
def serialize (m : List (K × V)) : List V :=
  m.map Prod.snd

/-- `v.into_iter().map(|item| (kfunc(&item), item)).collect()` into a
`BTreeMap`: sequential inserts, last write wins. -/
def collectMap [LinearOrder K] (kfunc : V → K) (vs : List V) : List (K × V) :=
  vs.foldl (fun acc v => btreeInsert (kfunc v) v acc) []

/-- Element-wise decoding of the serialized sequence
(`Vec::<V>::deserialize(deserializer)?`): the first element-level error
aborts and is returned. -/
def decodeSeq (decode : R → Except E V) : List R → Except E (List V)
  | [] => Except.ok []
  | r :: rs =>
    match decode r with
    | Except.error e => Except.error e
    | Except.ok v =>
      match decodeSeq decode rs with
      | Except.error e => Except.error e
      | Except.ok vs => Except.ok (v :: vs)

/-- The codec's `deserialize`: decode the sequence, then rebuild the map
by key re-derivation. -/
def deserialize [LinearOrder K] (decode : R → Except E V) (kfunc : V → K)
    (rs : List R) : Except E (List (K × V)) :=
  match decodeSeq decode rs with
  | Except.error e => Except.error e
  | Except.ok vs => Except.ok (collectMap kfunc vs)

/-- A sample element decoder that rejects the representation `"bad"`,
standing in for a value whose representation cannot be decoded. -/
def decFail (s : String) : Except Unit String :=
  if s = "bad" then Except.error () else Except.ok s

/-- A sample element decoder that accepts every representation. -/
def decOk (s : String) : Except Unit String :=
  Except.ok s

/-! ### Basic lemmas about `btreeInsert` and `btreeGet` -/

theorem btreeGet_btreeInsert [LinearOrder K] (k k' : K) (v : V)
    (m : List (K × V)) :
    btreeGet (btreeInsert k v m) k' =
      if k' = k then some v else btreeGet m k' := by
  induction m with
  | nil => simp [btreeInsert, btreeGet]
  | cons p rest ih =>
    obtain ⟨k₀, v₀⟩ := p
    by_cases h₁ : k < k₀
    · by_cases h : k' = k <;> simp [btreeInsert, h₁, btreeGet, h]
    · by_cases h₂ : k = k₀
      · subst h₂
        by_cases h : k' = k <;> simp [btreeInsert, h₁, btreeGet, h]
      · have hk₀ : k' = k₀ → ¬ k' = k := by
          rintro rfl h; exact h₂ h.symm
        by_cases h : k' = k₀
        · simp [btreeInsert, h₁, h₂, btreeGet, h, hk₀ h, Ne.symm h₂]
        · simp [btreeInsert, h₁, h₂, btreeGet, h, ih]

theorem mem_btreeInsert [LinearOrder K] {k : K} {v : V} {p : K × V}
    {m : List (K × V)} (hp : p ∈ btreeInsert k v m) :
    p = (k, v) ∨ p ∈ m := by
  induction m with
  | nil => simpa [btreeInsert] using hp
  | cons q rest ih =>
    obtain ⟨k₀, v₀⟩ := q
    by_cases h₁ : k < k₀
    · simp only [btreeInsert, if_pos h₁, List.mem_cons] at hp
      rcases hp with hp | hp | hp
      · exact Or.inl hp
      · exact Or.inr (by simp [hp])
      · exact Or.inr (by simp [hp])
    · by_cases h₂ : k = k₀
      · simp only [btreeInsert, if_neg h₁, if_pos h₂, List.mem_cons] at hp
        rcases hp with hp | hp
        · exact Or.inl hp
        · exact Or.inr (by simp [hp])
      · simp only [btreeInsert, if_neg h₁, if_neg h₂, List.mem_cons] at hp
        rcases hp with hp | hp
        · exact Or.inr (by simp [hp])
        · rcases ih hp with hp | hp
          · exact Or.inl hp
          · exact Or.inr (List.mem_cons_of_mem _ hp)

theorem sortedKeys_btreeInsert [LinearOrder K] {k : K} {v : V}
    {m : List (K × V)} (hm : SortedKeys m) :
    SortedKeys (btreeInsert k v m) := by
  induction m with
  | nil => simp [btreeInsert, SortedKeys]
  | cons q rest ih =>
    obtain ⟨k₀, v₀⟩ := q
    rw [SortedKeys, List.pairwise_cons] at hm
    obtain ⟨hhead, htail⟩ := hm
    by_cases h₁ : k < k₀
    · rw [SortedKeys, btreeInsert, if_pos h₁]
      refine List.Pairwise.cons ?_ (List.Pairwise.cons hhead htail)
      intro q hq
      rcases List.mem_cons.mp hq with rfl | hq
      · exact h₁
      · exact lt_trans h₁ (hhead q hq)
    · by_cases h₂ : k = k₀
      · subst h₂
        rw [SortedKeys, btreeInsert, if_neg h₁, if_pos rfl]
        exact List.Pairwise.cons hhead htail
      · rw [SortedKeys, btreeInsert, if_neg h₁, if_neg h₂]
        refine List.Pairwise.cons ?_ (ih htail)
        intro q hq
        rcases mem_btreeInsert hq with rfl | hq
        · exact lt_of_le_of_ne (le_of_not_lt h₁) (Ne.symm h₂)
        · exact hhead q hq

theorem btreeGet_eq_none [LinearOrder K] {m : List (K × V)} {k : K}
    (h : ∀ p ∈ m, p.1 ≠ k) : btreeGet m k = none := by
  induction m with
  | nil => rfl
  | cons q rest ih =>
    obtain ⟨k₀, v₀⟩ := q
    have hk₀ : k ≠ k₀ := fun hk => h (k₀, v₀) (by simp) (by simp [hk])
    rw [btreeGet, if_neg hk₀]
    exact ih fun p hp => h p (List.mem_cons_of_mem _ hp)

theorem btreeGet_head_none [LinearOrder K] {k₀ : K} {v₀ : V}
    {rest : List (K × V)} (h : SortedKeys ((k₀, v₀) :: rest)) :
    btreeGet rest k₀ = none := by
  rw [SortedKeys, List.pairwise_cons] at h
  exact btreeGet_eq_none fun p hp => ne_of_gt (h.1 p hp)

/-- Two sorted maps with the same lookup function are the same list. -/
theorem sortedKeys_ext [LinearOrder K] {m₁ m₂ : List (K × V)}
    (h₁ : SortedKeys m₁) (h₂ : SortedKeys m₂)
    (h : ∀ k, btreeGet m₁ k = btreeGet m₂ k) : m₁ = m₂ := by
  induction m₁ generalizing m₂ with
  | nil =>
    cases m₂ with
    | nil => rfl
    | cons q t₂ =>
      obtain ⟨k₂, v₂⟩ := q
      have := h k₂
      simp [btreeGet] at this
  | cons q t₁ ih =>
    obtain ⟨k₁, v₁⟩ := q
    cases m₂ with
    | nil =>
      have := h k₁
      simp [btreeGet] at this
    | cons q₂ t₂ =>
      obtain ⟨k₂, v₂⟩ := q₂
      rcases lt_trichotomy k₁ k₂ with hlt | heq | hgt
      · exfalso
        have hk := h k₁
        rw [btreeGet, if_pos rfl, btreeGet, if_neg (ne_of_lt hlt)] at hk
        have : btreeGet t₂ k₁ = none := by
          rw [SortedKeys, List.pairwise_cons] at h₂
          exact btreeGet_eq_none fun p hp =>
            ne_of_gt (lt_trans hlt (h₂.1 p hp))
        rw [this] at hk
        exact Option.some_ne_none v₁ hk
      · subst heq
        have hv : v₁ = v₂ := by
          have hk := h k₁
          rw [btreeGet, if_pos rfl, btreeGet, if_pos rfl] at hk
          exact Option.some_injective V hk
        subst hv
        have htails : ∀ k, btreeGet t₁ k = btreeGet t₂ k := by
          intro k
          by_cases hk : k = k₁
          · subst hk
            rw [btreeGet_head_none h₁, btreeGet_head_none h₂]
          · have := h k
            rwa [btreeGet, if_neg hk, btreeGet, if_neg hk] at this
        rw [SortedKeys, List.pairwise_cons] at h₁ h₂
        rw [ih h₁.2 h₂.2 htails]
      · exfalso
        have hk := h k₂
        rw [btreeGet, if_neg (ne_of_lt hgt), btreeGet,
          if_pos rfl] at hk
        have : btreeGet t₁ k₂ = none := by
          rw [SortedKeys, List.pairwise_cons] at h₁
          exact btreeGet_eq_none fun p hp =>
            ne_of_gt (lt_trans hgt (h₁.1 p hp))
        rw [this] at hk
        exact Option.some_ne_none v₂ hk.symm

/-- Inserting a key above every key of the map appends the new entry. -/
theorem btreeInsert_append [LinearOrder K] {m : List (K × V)} {k : K}
    (v : V) (h : ∀ p ∈ m, p.1 < k) :
    btreeInsert k v m = m ++ [(k, v)] := by
  induction m with
  | nil => rfl
  | cons q rest ih =>
    obtain ⟨k₀, v₀⟩ := q
    have hk₀ : k₀ < k := h (k₀, v₀) (by simp)
    rw [btreeInsert, if_neg (asymm hk₀), if_neg (ne_of_gt hk₀),
      List.cons_append,
      ih fun p hp => h p (List.mem_cons_of_mem _ hp)]

/-! ### Lemmas about `collectMap` -/

theorem sortedKeys_foldl_insert [LinearOrder K] (kfunc : V → K)
    (vs : List V) (acc : List (K × V)) (hacc : SortedKeys acc) :
    SortedKeys (vs.foldl (fun acc v => btreeInsert (kfunc v) v acc) acc) := by
  induction vs generalizing acc with
  | nil => exact hacc
  | cons v vs ih => exact ih _ (sortedKeys_btreeInsert hacc)

theorem sortedKeys_collectMap [LinearOrder K] (kfunc : V → K) (vs : List V) :
    SortedKeys (collectMap kfunc vs) :=
  sortedKeys_foldl_insert kfunc vs [] (List.Pairwise.nil)

theorem foldl_insert_of_sorted [LinearOrder K] (kfunc : V → K)
    (m : List (K × V)) :
    ∀ acc : List (K × V), SortedKeys (acc ++ m) →
      (∀ p ∈ m, kfunc p.2 = p.1) →
      (m.map Prod.snd).foldl (fun acc v => btreeInsert (kfunc v) v acc) acc =
        acc ++ m := by
  induction m with
  | nil => intro acc _ _; simp
  | cons p t ih =>
    intro acc hsorted hconsist
    obtain ⟨k₀, v₀⟩ := p
    have hk : kfunc v₀ = k₀ := hconsist (k₀, v₀) (by simp)
    have hlt : ∀ q ∈ acc, q.1 < k₀ := by
      rw [SortedKeys, List.pairwise_append] at hsorted
      intro q hq
      exact hsorted.2.2 q hq (k₀, v₀) (by simp)
    have hstep : btreeInsert (kfunc v₀) v₀ acc = acc ++ [(k₀, v₀)] := by
      rw [hk]; exact btreeInsert_append v₀ hlt
    have hassoc : (acc ++ [(k₀, v₀)]) ++ t = acc ++ ((k₀, v₀) :: t) := by
      simp
    rw [List.map_cons, List.foldl_cons, hstep,
      ih (acc ++ [(k₀, v₀)]) (by rw [hassoc]; exact hsorted)
        (fun q hq => hconsist q (List.mem_cons_of_mem _ hq)),
      hassoc]

/-- Re-collecting the serialized values of a key-consistent sorted map
rebuilds exactly that map. -/
theorem collectMap_serialize [LinearOrder K] (kfunc : V → K)
    {m : List (K × V)} (hsorted : SortedKeys m)
    (hconsist : ∀ p ∈ m, kfunc p.2 = p.1) :
    collectMap kfunc (serialize m) = m := by
  rw [collectMap, serialize,
    foldl_insert_of_sorted kfunc m [] (by simpa using hsorted) hconsist]
  simp

/-- Every entry of a collected map is key-consistent. -/
theorem collectMap_consistent [LinearOrder K] (kfunc : V → K) (vs : List V) :
    ∀ p ∈ collectMap kfunc vs, kfunc p.2 = p.1 := by
  have main : ∀ (vs : List V) (acc : List (K × V)),
      (∀ p ∈ acc, kfunc p.2 = p.1) →
      ∀ p ∈ vs.foldl (fun acc v => btreeInsert (kfunc v) v acc) acc,
        kfunc p.2 = p.1 := by
    intro vs
    induction vs with
    | nil => intro acc hacc; exact hacc
    | cons v t ih =>
      intro acc hacc
      refine ih _ ?_
      intro p hp
      rcases mem_btreeInsert hp with rfl | hp
      · rfl
      · exact hacc p hp
  exact main vs [] (by simp)

/-! ### Lemmas about `decodeSeq` -/

theorem decodeSeq_map_encode {decode : R → Except E V} {encode : V → R}
    (hre : ∀ v, decode (encode v) = Except.ok v) (vs : List V) :
    decodeSeq decode (vs.map encode) = Except.ok vs := by
  induction vs with
  | nil => rfl
  | cons v t ih => rw [List.map_cons, decodeSeq, hre, ih]

theorem decodeSeq_ok_of_forall {decode : R → Except E V} {rs : List R}
    (h : ∀ r ∈ rs, ∃ v, decode r = Except.ok v) :
    ∃ vs, decodeSeq decode rs = Except.ok vs := by
  induction rs with
  | nil => exact ⟨[], rfl⟩
  | cons r t ih =>
    obtain ⟨v, hv⟩ := h r (by simp)
    obtain ⟨vs, hvs⟩ := ih fun r hr => h r (List.mem_cons_of_mem _ hr)
    exact ⟨v :: vs, by rw [decodeSeq, hv, hvs]⟩

theorem decodeSeq_error_mem {decode : R → Except E V} {rs : List R} {e : E}
    (h : decodeSeq decode rs = Except.error e) :
    ∃ r ∈ rs, decode r = Except.error e := by
  induction rs with
  | nil => simp [decodeSeq] at h
  | cons r t ih =>
    rw [decodeSeq] at h
    cases hr : decode r with
    | error e₀ =>
      rw [hr] at h
      cases h
      exact ⟨r, by simp, hr⟩
    | ok v =>
      rw [hr] at h
      cases ht : decodeSeq decode t with
      | error e₀ =>
        rw [ht] at h
        cases h
        obtain ⟨r₀, hr₀, he₀⟩ := ih ht
        exact ⟨r₀, List.mem_cons_of_mem _ hr₀, he₀⟩
      | ok vs => rw [ht] at h; cases h

theorem decodeSeq_error_of_mem {decode : R → Except E V} {rs : List R}
    {r : R} {e : E} (hr : r ∈ rs) (he : decode r = Except.error e) :
    ∃ e₀, decodeSeq decode rs = Except.error e₀ := by
  induction rs with
  | nil => cases hr
  | cons r₀ t ih =>
    rcases List.mem_cons.mp hr with rfl | hr
    · exact ⟨e, by rw [decodeSeq, he]⟩
    · cases h₀ : decode r₀ with
      | error e₀ => exact ⟨e₀, by rw [decodeSeq, h₀]⟩
      | ok v =>
        obtain ⟨e₀, he₀⟩ := ih hr
        exact ⟨e₀, by rw [decodeSeq, h₀, he₀]⟩

/-- Last write wins: looking up `k` in the collected map returns the value
derived to `k` that occurs latest in the sequence. -/
theorem btreeGet_collectMap [LinearOrder K] (kfunc : V → K) (vs : List V)
    (k : K) :
    btreeGet (collectMap kfunc vs) k =
      (vs.filter fun v => decide (kfunc v = k)).getLast? := by
  induction vs using List.reverseRecOn with
  | nil => rfl
  | append_singleton xs v ih =>
    have hstep : collectMap kfunc (xs ++ [v]) =
        btreeInsert (kfunc v) v (collectMap kfunc xs) := by
      rw [collectMap, List.foldl_append, List.foldl_cons, List.foldl_nil,
        collectMap]
    rw [hstep, btreeGet_btreeInsert, List.filter_append, ih]
    by_cases h : kfunc v = k
    · rw [if_pos h.symm]
      simp [h, List.getLast?_concat]
    · rw [if_neg fun hk => h hk.symm]
      simp [h]

theorem btreeGet_isSome_iff [LinearOrder K] (m : List (K × V)) (k : K) :
    (∃ v, btreeGet m k = some v) ↔ k ∈ m.map Prod.fst := by
  induction m with
  | nil => simp [btreeGet]
  | cons p rest ih =>
    obtain ⟨k₀, v₀⟩ := p
    by_cases h : k = k₀
    · subst h; simp [btreeGet]
    · simp [btreeGet, h, ih]

theorem btreeGet_of_mem_sorted [LinearOrder K] {m : List (K × V)}
    {k : K} {v : V} (hm : SortedKeys m) (hmem : (k, v) ∈ m) :
    btreeGet m k = some v := by
  induction m with
  | nil => cases hmem
  | cons p rest ih =>
    obtain ⟨k₀, v₀⟩ := p
    rw [SortedKeys, List.pairwise_cons] at hm
    rcases List.mem_cons.mp hmem with heq | hmem
    · obtain ⟨rfl, rfl⟩ := Prod.mk.injEq .. ▸ heq
      rw [btreeGet, if_pos rfl]
    · have hk : k ≠ k₀ := by
        have := hm.1 (k, v) hmem
        exact ne_of_gt this
      rw [btreeGet, if_neg hk]
      exact ih hm.2 hmem

/-- The key set of the collected map is the image of the sequence under
the derivation function. -/
theorem mem_keys_collectMap_iff [LinearOrder K] (kfunc : V → K)
    (vs : List V) (k : K) :
    k ∈ (collectMap kfunc vs).map Prod.fst ↔ ∃ v ∈ vs, kfunc v = k := by
  rw [← btreeGet_isSome_iff, btreeGet_collectMap]
  constructor
  · rintro ⟨v, hv⟩
    by_contra hno
    push_neg at hno
    have hnil : vs.filter (fun v => decide (kfunc v = k)) = [] :=
      List.filter_eq_nil_iff.mpr (fun a ha => by simp [hno a ha])
    rw [hnil] at hv
    cases hv
  · rintro ⟨v, hv, hk⟩
    have hne : vs.filter (fun v => decide (kfunc v = k)) ≠ [] := by
      intro hnil
      have := List.filter_eq_nil_iff.mp hnil v hv
      simp [hk] at this
    have := mt List.getLast?_eq_none_iff.mp hne
    cases hlast : (vs.filter fun v => decide (kfunc v = k)).getLast? with
    | none => exact absurd hlast this
    | some w => exact ⟨w, rfl⟩

/-! ### Length lemmas -/

theorem length_btreeInsert_none [LinearOrder K] (k : K) (v : V) :
    ∀ m : List (K × V), btreeGet m k = none →
      (btreeInsert k v m).length = m.length + 1 := by
  intro m
  induction m with
  | nil => intro _; rfl
  | cons p rest ih =>
    intro hget
    obtain ⟨k₀, v₀⟩ := p
    by_cases h₁ : k < k₀
    · rw [btreeInsert, if_pos h₁]
      simp
    · by_cases h₂ : k = k₀
      · rw [btreeGet, if_pos h₂] at hget
        cases hget
      · rw [btreeGet, if_neg h₂] at hget
        rw [btreeInsert, if_neg h₁, if_neg h₂, List.length_cons,
          List.length_cons, ih hget]

theorem length_btreeInsert_some [LinearOrder K] (k : K) (v : V) :
    ∀ m : List (K × V), SortedKeys m → btreeGet m k ≠ none →
      (btreeInsert k v m).length = m.length := by
  intro m
  induction m with
  | nil => intro _ h; exact absurd rfl h
  | cons p rest ih =>
    intro hm hget
    obtain ⟨k₀, v₀⟩ := p
    rw [SortedKeys, List.pairwise_cons] at hm
    by_cases h₂ : k = k₀
    · have h₁ : ¬ k < k₀ := by rw [h₂]; exact lt_irrefl k₀
      rw [btreeInsert, if_neg h₁, if_pos h₂]
      simp
    · rw [btreeGet, if_neg h₂] at hget
      by_cases h₁ : k < k₀
      · exfalso
        apply hget
        apply btreeGet_eq_none
        intro p hp
        exact ne_of_gt (lt_trans h₁ (hm.1 p hp))
      · rw [btreeInsert, if_neg h₁, if_neg h₂, List.length_cons,
          List.length_cons, ih hm.2 hget]

theorem length_foldl_insert_le [LinearOrder K] (kfunc : V → K) :
    ∀ (vs : List V) (acc : List (K × V)), SortedKeys acc →
      (vs.foldl (fun acc v => btreeInsert (kfunc v) v acc) acc).length ≤
        acc.length + vs.length := by
  intro vs
  induction vs with
  | nil => intro acc _; simp
  | cons v t ih =>
    intro acc hacc
    rw [List.foldl_cons]
    have h₁ := ih (btreeInsert (kfunc v) v acc) (sortedKeys_btreeInsert hacc)
    have h₂ : (btreeInsert (kfunc v) v acc).length ≤ acc.length + 1 := by
      by_cases hg : btreeGet acc (kfunc v) = none
      · rw [length_btreeInsert_none _ _ acc hg]
      · rw [length_btreeInsert_some _ _ acc hacc hg]
        omega
    rw [List.length_cons]
    omega

theorem length_foldl_insert_eq_iff [LinearOrder K] (kfunc : V → K) :
    ∀ (vs : List V) (acc : List (K × V)), SortedKeys acc →
      ((vs.foldl (fun acc v => btreeInsert (kfunc v) v acc) acc).length =
          acc.length + vs.length ↔
        List.Pairwise (fun a b => kfunc a ≠ kfunc b) vs ∧
          ∀ v ∈ vs, btreeGet acc (kfunc v) = none) := by
  intro vs
  induction vs with
  | nil => intro acc _; simp
  | cons v t ih =>
    intro acc hacc
    rw [List.foldl_cons, List.length_cons]
    by_cases hg : btreeGet acc (kfunc v) = none
    · have hlen : (btreeInsert (kfunc v) v acc).length = acc.length + 1 :=
        length_btreeInsert_none _ _ acc hg
      constructor
      · intro h
        have h' : ((t.foldl (fun acc v => btreeInsert (kfunc v) v acc)
            (btreeInsert (kfunc v) v acc)).length =
            (btreeInsert (kfunc v) v acc).length + t.length) := by
          rw [hlen]; omega
        obtain ⟨hpw, hnone⟩ :=
          (ih _ (sortedKeys_btreeInsert hacc)).mp h'
        refine ⟨List.Pairwise.cons ?_ hpw, ?_⟩
        · intro w hw heq
          have hnw := hnone w hw
          rw [btreeGet_btreeInsert, if_pos heq.symm] at hnw
          cases hnw
        · intro w hw
          rcases List.mem_cons.mp hw with rfl | hw
          · exact hg
          · have hnw := hnone w hw
            rw [btreeGet_btreeInsert] at hnw
            by_cases he : kfunc w = kfunc v
            · rw [if_pos he] at hnw; cases hnw
            · rwa [if_neg he] at hnw
      · rintro ⟨hpw, hnone⟩
        rw [List.pairwise_cons] at hpw
        have h' : ∀ w ∈ t,
            btreeGet (btreeInsert (kfunc v) v acc) (kfunc w) = none := by
          intro w hw
          rw [btreeGet_btreeInsert, if_neg fun he => hpw.1 w hw he.symm]
          exact hnone w (List.mem_cons_of_mem _ hw)
        have heq := (ih _ (sortedKeys_btreeInsert hacc)).mpr ⟨hpw.2, h'⟩
        rw [heq, hlen]
        omega
    · have hlen : (btreeInsert (kfunc v) v acc).length = acc.length :=
        length_btreeInsert_some _ _ acc hacc hg
      have hle := length_foldl_insert_le kfunc t
        (btreeInsert (kfunc v) v acc) (sortedKeys_btreeInsert hacc)
      constructor
      · intro h
        rw [hlen] at hle
        omega
      · rintro ⟨_, hnone⟩
        exact absurd (hnone v (by simp)) hg

/-! ### Unfolding lemmas for `deserialize` -/

theorem deserialize_ok_of_decode [LinearOrder K] {decode : R → Except E V}
    {kfunc : V → K} {rs : List R} {vs : List V}
    (h : decodeSeq decode rs = Except.ok vs) :
    deserialize decode kfunc rs = Except.ok (collectMap kfunc vs) := by
  rw [deserialize, h]

theorem deserialize_error_of_decode [LinearOrder K] {decode : R → Except E V}
    {kfunc : V → K} {rs : List R} {e : E}
    (h : decodeSeq decode rs = Except.error e) :
    deserialize decode kfunc rs = Except.error e := by
  rw [deserialize, h]

/-! ### Permutation lemmas for order independence -/

theorem filter_length_le_one_of_pairwise [LinearOrder K] {kfunc : V → K}
    {vs : List V} (hdistinct : List.Pairwise (fun a b => kfunc a ≠ kfunc b) vs)
    (k : K) : (vs.filter fun v => decide (kfunc v = k)).length ≤ 1 := by
  have hpw := hdistinct.filter (fun v => decide (kfunc v = k))
  cases hf : vs.filter (fun v => decide (kfunc v = k)) with
  | nil => simp
  | cons x t =>
    cases t with
    | nil => simp
    | cons y t₂ =>
      exfalso
      rw [hf, List.pairwise_cons] at hpw
      have hx : kfunc x = k := by
        have := List.mem_filter.mp (hf ▸ List.mem_cons_self x (y :: t₂))
        simpa using this.2
      have hy : kfunc y = k := by
        have := List.mem_filter.mp
          (hf ▸ List.mem_cons_of_mem x (List.mem_cons_self y t₂))
        simpa using this.2
      exact hpw.1 y (by simp) (hx.trans hy.symm)

theorem perm_eq_of_length_le_one {α : Type} {l₁ l₂ : List α}
    (h : l₁.Perm l₂) (hl : l₁.length ≤ 1) : l₁ = l₂ := by
  cases l₁ with
  | nil => exact h.nil_eq
  | cons a t =>
    cases t with
    | nil => exact List.singleton_perm.mp h
    | cons b t₂ => simp at hl

/-- Collecting two permuted sequences whose derived keys are pairwise
distinct yields the same map. -/
theorem collectMap_perm_eq [LinearOrder K] (kfunc : V → K)
    {vs₁ vs₂ : List V} (hperm : vs₁.Perm vs₂)
    (hdistinct : List.Pairwise (fun a b => kfunc a ≠ kfunc b) vs₁) :
    collectMap kfunc vs₁ = collectMap kfunc vs₂ := by
  apply sortedKeys_ext (sortedKeys_collectMap kfunc vs₁)
    (sortedKeys_collectMap kfunc vs₂)
  intro k
  rw [btreeGet_collectMap, btreeGet_collectMap,
    perm_eq_of_length_le_one (hperm.filter _)
      (filter_length_le_one_of_pairwise hdistinct k)]

/-! ### The claims -/

/-- C1: for every ordered map `m` satisfying the key-consistency invariant
(`kfunc v = k` for each entry `(k, v)`), and an element codec that
round-trips, deserializing the serialization of `m` yields `m` back. -/
theorem C1_roundtrip [LinearOrder K] (decode : R → Except E V)
    (encode : V → R) (kfunc : V → K) (m : List (K × V))
    (hsorted : SortedKeys m)
    (hconsist : ∀ p ∈ m, kfunc p.2 = p.1)
    (hcodec : ∀ v, decode (encode v) = Except.ok v) :
    deserialize decode kfunc ((serialize m).map encode) = Except.ok m := by
  rw [deserialize_ok_of_decode (decodeSeq_map_encode hcodec (serialize m)),
    collectMap_serialize kfunc hsorted hconsist]

theorem C1_roundtrip_witness :
    deserialize decOk String.length
        ((serialize [(1, "a"), (2, "bb")]).map id) =
      Except.ok [(1, "a"), (2, "bb")] :=
  C1_roundtrip decOk id String.length [(1, "a"), (2, "bb")]
    (by decide) (by decide) (fun v => rfl)

/-- C2: duplicate derived keys are not an error: when the elements decode
and at least two of the decoded values derive the key `k`, `deserialize`
succeeds, and the reconstructed map binds `k` to the value deriving `k`
that appears latest in sequence order (last write wins). -/
theorem C2_last_write_wins [LinearOrder K] (decode : R → Except E V)
    (kfunc : V → K) (rs : List R) (vs : List V) (k : K)
    (hdec : decodeSeq decode rs = Except.ok vs)
    (hcol : 2 ≤ (vs.filter fun v => decide (kfunc v = k)).length) :
    deserialize decode kfunc rs = Except.ok (collectMap kfunc vs) ∧
      (vs.filter fun v => decide (kfunc v = k)).getLast? ≠ none ∧
      btreeGet (collectMap kfunc vs) k =
        (vs.filter fun v => decide (kfunc v = k)).getLast? := by
  refine ⟨deserialize_ok_of_decode hdec, ?_, btreeGet_collectMap kfunc vs k⟩
  intro hnone
  rw [List.getLast?_eq_none_iff] at hnone
  rw [hnone] at hcol
  simp at hcol

theorem C2_last_write_wins_witness :
    deserialize decOk String.length ["x", "y"] =
        Except.ok (collectMap String.length ["x", "y"]) ∧
      (["x", "y"].filter fun v => decide (String.length v = 1)).getLast? ≠
        none ∧
      btreeGet (collectMap String.length ["x", "y"]) 1 =
        (["x", "y"].filter fun v => decide (String.length v = 1)).getLast? :=
  C2_last_write_wins decOk String.length ["x", "y"] ["x", "y"] 1 rfl
    (by decide)

/-- C3: `serialize` has one output element per map entry, the keys of a
sorted map strictly ascend, and the `i`-th serialized element is exactly
the value the map binds to its `i`-th smallest key — keys themselves are
discarded. -/
theorem C3_serialize_order [LinearOrder K] (m : List (K × V)) (i : Nat)
    (hsorted : SortedKeys m) (hi : i < m.length) :
    (serialize m).length = m.length ∧
      List.Pairwise (fun a b => a < b) (m.map Prod.fst) ∧
      ∃ k v, (m.map Prod.fst)[i]? = some k ∧ (serialize m)[i]? = some v ∧
        btreeGet m k = some v := by
  refine ⟨List.length_map m Prod.snd, ?_, ?_⟩
  · rw [List.pairwise_map]
    exact hsorted
  · refine ⟨m[i].1, m[i].2, ?_, ?_, ?_⟩
    · rw [List.getElem?_map, List.getElem?_eq_getElem hi]
      rfl
    · rw [serialize, List.getElem?_map, List.getElem?_eq_getElem hi]
      rfl
    · exact btreeGet_of_mem_sorted hsorted
        (by simp only [Prod.mk.eta]; exact List.getElem_mem hi)

theorem C3_serialize_order_witness :
    (serialize [(1, "a"), (2, "bb")]).length = [(1, "a"), (2, "bb")].length ∧
      List.Pairwise (fun a b => a < b)
        ([(1, "a"), (2, "bb")].map Prod.fst) ∧
      ∃ k v, ([(1, "a"), (2, "bb")].map Prod.fst)[1]? = some k ∧
        (serialize [(1, "a"), (2, "bb")])[1]? = some v ∧
        btreeGet [(1, "a"), (2, "bb")] k = some v :=
  C3_serialize_order [(1, "a"), (2, "bb")] 1 (by decide) (by decide)

/-- C4: `deserialize` fails exactly when some element of the input
sequence fails to decode; the element-level error is what the whole call
returns, so the caller sees a single propagated error and no partial
map. -/
theorem C4_error_propagation [LinearOrder K] (decode : R → Except E V)
    (kfunc : V → K) (rs : List R) :
    (∀ e, deserialize decode kfunc rs = Except.error e →
        ∃ r ∈ rs, decode r = Except.error e) ∧
      ((∃ r ∈ rs, ∃ e, decode r = Except.error e) →
        ∃ e, deserialize decode kfunc rs = Except.error e) := by
  constructor
  · intro e he
    cases hds : decodeSeq decode rs with
    | error e₀ =>
      rw [deserialize_error_of_decode hds] at he
      cases he
      exact decodeSeq_error_mem hds
    | ok vs =>
      rw [deserialize_ok_of_decode hds] at he
      cases he
  · rintro ⟨r, hr, e, he⟩
    obtain ⟨e₀, he₀⟩ := decodeSeq_error_of_mem hr he
    exact ⟨e₀, deserialize_error_of_decode he₀⟩

theorem C4_error_propagation_witness :
    ∃ e, deserialize decFail String.length ["bad"] = Except.error e :=
  (C4_error_propagation decFail String.length ["bad"]).2
    ⟨"bad", by simp, (), rfl⟩

/-- C5: two permuted input sequences whose decoded values derive pairwise
distinct keys deserialize to the same map: without collisions the result
is independent of sequence order. -/
theorem C5_order_independence [LinearOrder K] (decode : R → Except E V)
    (kfunc : V → K) (rs₁ rs₂ : List R) (vs₁ vs₂ : List V)
    (h₁ : decodeSeq decode rs₁ = Except.ok vs₁)
    (h₂ : decodeSeq decode rs₂ = Except.ok vs₂)
    (hperm : vs₁.Perm vs₂)
    (hdistinct : List.Pairwise (fun a b => kfunc a ≠ kfunc b) vs₁) :
    deserialize decode kfunc rs₁ = deserialize decode kfunc rs₂ := by
  rw [deserialize_ok_of_decode h₁, deserialize_ok_of_decode h₂,
    collectMap_perm_eq kfunc hperm hdistinct]

theorem C5_order_independence_witness :
    deserialize decOk String.length ["a", "bb"] =
      deserialize decOk String.length ["bb", "a"] :=
  C5_order_independence decOk String.length ["a", "bb"] ["bb", "a"]
    ["a", "bb"] ["bb", "a"] rfl rfl (List.Perm.swap "bb" "a" [])
    (by decide)

/-- C6: serializing the empty map yields the empty sequence, and
deserializing the empty sequence succeeds with the empty map. -/
theorem C6_empty [LinearOrder K] (decode : R → Except E V) (kfunc : V → K) :
    serialize ([] : List (K × V)) = ([] : List V) ∧
      deserialize decode kfunc ([] : List R) =
        Except.ok ([] : List (K × V)) :=
  ⟨rfl, rfl⟩

/-- C7: both string append helpers return the concatenation of their two
arguments — the first argument's buffer with the second appended — and
are total. -/
theorem C7_string_append_concat (s1 s2 : String) :
    (string_append s1 s2).data = s1.data ++ s2.data ∧
      (string_append_str s1 s2).data = s1.data ++ s2.data := by
  constructor <;> simp [string_append, string_append_str]

/-- C8: `std_usize` and `std_isize` are precisely the fixed-width 64-bit
unsigned and signed integer types: pure aliases, whose values range over
`[0, 2 ^ 64)` and `[-2 ^ 63, 2 ^ 63)` respectively. -/
theorem C8_numeric_aliases :
    std_usize = u64 ∧ std_isize = i64 ∧
      (∀ x : std_usize, u64.val x < 2 ^ 64) ∧
      (∀ x : std_isize, -2 ^ 63 ≤ i64.val x ∧ i64.val x < 2 ^ 63) :=
  ⟨rfl, rfl, fun x => x.isLt, fun x => ⟨x.lowerBound, x.upperBound⟩⟩

/-- C9: every entry of a successfully deserialized map satisfies the
key-derivation invariant `kfunc v = k`, whether or not the input had
duplicate derived keys. -/
theorem C9_key_invariant [LinearOrder K] (decode : R → Except E V)
    (kfunc : V → K) (rs : List R) (m : List (K × V)) (p : K × V)
    (h : deserialize decode kfunc rs = Except.ok m) (hp : p ∈ m) :
    kfunc p.2 = p.1 := by
  cases hds : decodeSeq decode rs with
  | error e =>
    rw [deserialize_error_of_decode hds] at h
    cases h
  | ok vs =>
    rw [deserialize_ok_of_decode hds] at h
    cases h
    exact collectMap_consistent kfunc vs p hp

theorem C9_key_invariant_witness :
    String.length ((1 : Nat), "y").2 = ((1 : Nat), "y").1 :=
  C9_key_invariant decOk String.length ["x", "y"] [(1, "y")] (1, "y")
    rfl (by decide)

/-- C10: a successfully deserialized map's key set is exactly the image
of the input values under key derivation; its size is at most the input
length, with equality exactly when the derived keys are pairwise
distinct; and `serialize` emits one element per map entry. -/
theorem C10_key_set_and_sizes [LinearOrder K] (decode : R → Except E V)
    (kfunc : V → K) (rs : List R) (vs : List V) (k : K)
    (m0 : List (K × V))
    (hdec : decodeSeq decode rs = Except.ok vs) :
    deserialize decode kfunc rs = Except.ok (collectMap kfunc vs) ∧
      (k ∈ (collectMap kfunc vs).map Prod.fst ↔ ∃ v ∈ vs, kfunc v = k) ∧
      (collectMap kfunc vs).length ≤ vs.length ∧
      ((collectMap kfunc vs).length = vs.length ↔
        List.Pairwise (fun a b => kfunc a ≠ kfunc b) vs) ∧
      (serialize m0).length = m0.length := by
  refine ⟨deserialize_ok_of_decode hdec, mem_keys_collectMap_iff kfunc vs k,
    ?_, ?_, List.length_map m0 Prod.snd⟩
  · have h := length_foldl_insert_le kfunc vs [] List.Pairwise.nil
    rw [collectMap]
    simpa using h
  · have h := length_foldl_insert_eq_iff kfunc vs [] List.Pairwise.nil
    rw [collectMap]
    simpa [btreeGet] using h

theorem C10_key_set_and_sizes_witness :
    deserialize decOk String.length ["x", "y"] =
        Except.ok (collectMap String.length ["x", "y"]) ∧
      ((1 : Nat) ∈ (collectMap String.length ["x", "y"]).map Prod.fst ↔
        ∃ v ∈ ["x", "y"], String.length v = 1) ∧
      (collectMap String.length ["x", "y"]).length ≤ ["x", "y"].length ∧
      ((collectMap String.length ["x", "y"]).length = ["x", "y"].length ↔
        List.Pairwise (fun a b => String.length a ≠ String.length b)
          ["x", "y"]) ∧
      (serialize [((1 : Nat), "a")]).length = [((1 : Nat), "a")].length :=
  C10_key_set_and_sizes decOk String.length ["x", "y"] ["x", "y"] 1
    [(1, "a")] rfl

end ddlog
